import Mathlib

/-!
Shallow embedding of the Infinitoe game engine (rolling-window tic-tac-toe):
`src/engine/Board.ts`, `src/engine/Game.ts` and the `MediumAI` strategy of
the engine's AI module, together with proofs of the specification claims.

Conventions of the embedding:
* TypeScript `number` cell indices are `Int`; the JavaScript shift operator
  `1 << pos` wraps its shift count modulo 32 (ECMAScript `ToUint32(pos) & 31`),
  which `jsBit` models; the bitboards themselves stay below `2 ^ 9` under all
  `Board` operations, so `&`, `|` and `testBit` on `Nat` agree with the
  32-bit JavaScript operations.
* Methods that can `throw` return `Except String _`; all other methods are
  pure functions from the receiver value to the updated value.
-/

inductive Player where
  | X : Player
  | O : Player
deriving DecidableEq, Repr

/-- `me === 'X' ? 'O' : 'X'` — the opposing mark. -/
def Player.other : Player → Player
  | .X => .O
  | .O => .X

/-- The eight winning bitmasks of `Board.ts` (rows, columns, diagonals). -/
def WINNING_MASKS : List Nat :=
  [0b111000000, 0b000111000, 0b000000111,
   0b100100100, 0b010010010, 0b001001001,
   0b100010001, 0b001010100]

/-- The two bitboards `{ X: 0, O: 0 }` of the `Board` class. -/
structure Board where
  bbX : Nat
  bbO : Nat
deriving DecidableEq, Repr

/-- Field access `this.bitboards[player]`. -/
def Board.bb (b : Board) : Player → Nat
  | .X => b.bbX
  | .O => b.bbO

/-- Assignment `this.bitboards[player] = v`. -/
def Board.setBB (b : Board) (p : Player) (v : Nat) : Board :=
  match p with
  | .X => { b with bbX := v }
  | .O => { b with bbO := v }

/-- The bit position addressed by the JavaScript expression `1 << pos`:
the shift count is taken modulo 32 (`ToUint32(pos) & 31`). -/
def jsBit (pos : Int) : Nat := (pos % 32).toNat

/-- `Board.isCellOccupied`:
`(bitboards.X & (1 << pos)) !== 0 || (bitboards.O & (1 << pos)) !== 0`. -/
def Board.isCellOccupied (b : Board) (pos : Int) : Bool :=
  b.bbX.testBit (jsBit pos) || b.bbO.testBit (jsBit pos)

/-- The successful mutation of `Board.makeMove`: `bitboards[player] |= mask`. -/
def Board.place (b : Board) (pos : Int) (p : Player) : Board :=
  b.setBB p (b.bb p ||| (1 <<< jsBit pos))

/-- `Board.makeMove(pos, player)`: throws on an out-of-range position, throws
on an occupied cell, otherwise ORs the mask into the player's bitboard. -/
def Board.makeMove (b : Board) (pos : Int) (p : Player) : Except String Board :=
  if pos < 0 ∨ 8 < pos then
    .error ("Invalid position: " ++ toString pos)
  else if b.isCellOccupied pos then
    .error ("Cell " ++ toString pos ++ " already occupied")
  else
    .ok (b.place pos p)

/-- `Board.removeMove(pos, player)`: `bitboards[player] &= ~(1 << pos)`.
The 32-bit two's-complement pattern of `~(1 << pos)` is
`(2 ^ 32 - 1) ^^^ (1 <<< jsBit pos)`. -/
def Board.removeMove (b : Board) (pos : Int) (p : Player) : Board :=
  b.setBB p (b.bb p &&& (4294967295 ^^^ (1 <<< jsBit pos)))

/-- `Board.hasWin(player)`: some winning mask is fully contained in the
player's bitboard (`(board & mask) === mask`). -/
def Board.hasWin (b : Board) (p : Player) : Bool :=
  WINNING_MASKS.any (fun m => b.bb p &&& m == m)

/-- `Board.getLegalMoves()`: the unoccupied cells among `0..8`, ascending. -/
def Board.getLegalMoves (b : Board) : List Int :=
  ((List.range 9).filter (fun (i : Nat) => !(b.isCellOccupied (i : Int)))).map
    (fun (i : Nat) => (i : Int))

/-- `Board.getCell(pos)`: the player occupying the cell, `X` checked first. -/
def Board.getCell (b : Board) (pos : Int) : Option Player :=
  if b.bbX.testBit (jsBit pos) then some .X
  else if b.bbO.testBit (jsBit pos) then some .O
  else none

/-- `Board.clone()`: a new `Board` with a copy (`{ ...this.bitboards }`) of
the two numeric bitboard fields. -/
def Board.clone (b : Board) : Board :=
  { bbX := b.bbX, bbO := b.bbO }

inductive GameStatus where
  | ONGOING : GameStatus
  | X_WIN : GameStatus
  | O_WIN : GameStatus
deriving DecidableEq, Repr

/-- The status written by `` this.status = `${this.current}_WIN` ``. -/
def Player.winStatus : Player → GameStatus
  | .X => .X_WIN
  | .O => .O_WIN

/-- `InfinitoeGame.MAX_MOVES_PER_PLAYER`. -/
def MAX_MOVES_PER_PLAYER : Nat := 3

/-- The state of an `InfinitoeGame` instance: board, current player,
per-player histories and status. -/
structure InfinitoeGame where
  board : Board
  current : Player
  histX : List Int
  histO : List Int
  status : GameStatus
deriving DecidableEq, Repr

/-- Field access `this.history[p]`. -/
def InfinitoeGame.history (g : InfinitoeGame) : Player → List Int
  | .X => g.histX
  | .O => g.histO

/-- Assignment `this.history[p] = l`. -/
def InfinitoeGame.setHistory (g : InfinitoeGame) (p : Player) (l : List Int) :
    InfinitoeGame :=
  match p with
  | .X => { g with histX := l }
  | .O => { g with histO := l }

/-- The result object `{ status, removed }` returned by
`InfinitoeGame.makeMove`. -/
structure MoveResult where
  status : GameStatus
  removed : Option Int
deriving DecidableEq, Repr

/-- The tail of `InfinitoeGame.makeMove` after `board.makeMove` succeeded
with new board `b1`: push the index, evict the oldest entry when the history
exceeds `MAX_MOVES_PER_PLAYER`, then check the win on the post-eviction
board; on a win set the status without flipping the turn, otherwise flip
the turn. -/
def InfinitoeGame.finishMove (g : InfinitoeGame) (i : Int) (b1 : Board) :
    InfinitoeGame × MoveResult :=
  let cur := g.current
  let h1 := g.history cur ++ [i]
  let step :=
    if MAX_MOVES_PER_PLAYER < h1.length then
      match h1 with
      | [] => (b1, h1, (none : Option Int))
      | rm :: rest => (b1.removeMove rm cur, rest, some rm)
    else (b1, h1, none)
  let b2 := step.1
  let h2 := step.2.1
  let removed := step.2.2
  if b2.hasWin cur then
    ({ g.setHistory cur h2 with board := b2, status := cur.winStatus },
     { status := cur.winStatus, removed := removed })
  else
    ({ g.setHistory cur h2 with board := b2, current := cur.other },
     { status := g.status, removed := removed })

/-- `InfinitoeGame.makeMove(index)`: reject (returning the current status and
`removed = null`, with no state change) when the game is not ongoing or the
cell is occupied; otherwise delegate to `board.makeMove` (whose exception
propagates) and finish the accepted move. -/
def InfinitoeGame.makeMove (g : InfinitoeGame) (i : Int) :
    Except String (InfinitoeGame × MoveResult) :=
  if g.status ≠ .ONGOING ∨ g.board.isCellOccupied i = true then
    .ok (g, { status := g.status, removed := none })
  else
    match g.board.makeMove i g.current with
    | .error e => .error e
    | .ok b1 => .ok (g.finishMove i b1)

/-- The initial state of a fresh `InfinitoeGame` (also the state produced by
`reset()`). -/
def InfinitoeGame.init : InfinitoeGame :=
  { board := { bbX := 0, bbO := 0 }, current := .X, histX := [], histO := [],
    status := .ONGOING }

/-- `InfinitoeGame.reset()`. -/
def InfinitoeGame.reset (_ : InfinitoeGame) : InfinitoeGame :=
  InfinitoeGame.init

/-- The acceptance guard of `InfinitoeGame.makeMove`: the move is accepted
(the state is mutated) exactly when the game is ongoing and the occupancy
test does not trigger. -/
def InfinitoeGame.accepts (g : InfinitoeGame) (i : Int) : Bool :=
  g.status == .ONGOING && !(g.board.isCellOccupied i)

/-- One simulation step of the `MediumAI` rules: clone the board, place `m`
for `p` (`testBoard.makeMove(move, p)`), and report whether `p` then has a
win. The `.error` branch is unreachable for cells drawn from
`getLegalMoves`. -/
def simWin (b : Board) (p : Player) (m : Int) : Bool :=
  match b.clone.makeMove m p with
  | .ok t => t.hasWin p
  | .error _ => false

/-- `MediumAI.findForkMove(board, player)`: the first legal move after which
the player has at least two distinct immediate winning follow-ups. -/
def MediumAI.findForkMove (b : Board) (p : Player) : Option Int :=
  b.getLegalMoves.find? (fun m =>
    match b.clone.makeMove m p with
    | .error _ => false
    | .ok t =>
      2 ≤ (t.getLegalMoves.filter (fun f => simWin t p f)).length)

/-- The corner/opposite-corner pairs of rule 6 of `MediumAI.chooseMove`. -/
def oppositeCorners : List (Int × Int) := [(0, 8), (2, 6), (6, 2), (8, 0)]

/-- `MediumAI.chooseMove(game)`: the ordered rule cascade — win, block,
fork, block fork, center, opposite corner, corner, side, first legal move.
The JavaScript fallback `getLegalMoves()[0]` on an empty list yields
`undefined`, modelled as `none`. -/
def MediumAI.chooseMove (g : InfinitoeGame) : Option Int :=
  let b := g.board
  let me := g.current
  let opponent := me.other
  match b.getLegalMoves.find? (fun m => simWin b me m) with
  | some m => some m
  | none =>
  match b.getLegalMoves.find? (fun m => simWin b opponent m) with
  | some m => some m
  | none =>
  match MediumAI.findForkMove b me with
  | some m => some m
  | none =>
  match MediumAI.findForkMove b opponent with
  | some m => some m
  | none =>
  if !(b.isCellOccupied 4) then some 4
  else
  match oppositeCorners.find? (fun pr =>
      b.getCell pr.1 == some opponent && !(b.isCellOccupied pr.2)) with
  | some pr => some pr.2
  | none =>
  match ([0, 2, 6, 8] : List Int).find? (fun c => !(b.isCellOccupied c)) with
  | some c => some c
  | none =>
  match ([1, 3, 5, 7] : List Int).find? (fun c => !(b.isCellOccupied c)) with
  | some c => some c
  | none => b.getLegalMoves.head?

/-!
Heap model for `Board.clone` independence (claim about aliasing): board
objects live in a store addressed by references; `clone()` allocates a fresh
reference holding a copy of the record, while the mutating methods update
the store only at the receiver's reference.
-/

/-- A store of `Board` objects: `next` is the next fresh reference. -/
structure Heap where
  store : Nat → Board
  next : Nat

/-- Overwrite the board object at reference `r`. -/
def Heap.update (h : Heap) (r : Nat) (b : Board) : Heap :=
  { h with store := fun s => if s = r then b else h.store s }

/-- `b.clone()`: allocate a fresh reference holding a copy of the record at
`r`, returning the new reference. -/
def Heap.cloneBoard (h : Heap) (r : Nat) : Nat × Heap :=
  (h.next,
   { store := fun s => if s = h.next then h.store r else h.store s,
     next := h.next + 1 })

/-- A mutating `Board` method call, as an operation on the heap. -/
inductive BOp where
  | make : Int → Player → BOp
  | remove : Int → Player → BOp
deriving DecidableEq, Repr

/-- Run one mutating method on the object at reference `r`. A `makeMove`
whose guard throws leaves the object unmutated (the exception is raised
before the assignment). -/
def Heap.applyOp (h : Heap) (r : Nat) : BOp → Heap
  | .make pos p =>
    match (h.store r).makeMove pos p with
    | .ok b => h.update r b
    | .error _ => h
  | .remove pos p => h.update r ((h.store r).removeMove pos p)

/-- Run a sequence of mutating method calls on the object at reference `r`. -/
def Heap.applyOps (h : Heap) (r : Nat) : List BOp → Heap
  | [] => h
  | op :: ops => (h.applyOp r op).applyOps r ops

/-! ### Basic lemmas about the embedding -/

theorem jsBit_lt_32 (pos : Int) : jsBit pos < 32 := by
  unfold jsBit
  have h1 : 0 ≤ pos % 32 := Int.emod_nonneg pos (by norm_num)
  have h2 : pos % 32 < 32 := Int.emod_lt_of_pos pos (by norm_num)
  omega

theorem jsBit_eq_toNat {pos : Int} (h0 : 0 ≤ pos) (h8 : pos ≤ 8) :
    jsBit pos = pos.toNat := by
  unfold jsBit
  rw [Int.emod_eq_of_lt h0 (by omega)]

theorem bb_setBB_self (b : Board) (p : Player) (v : Nat) :
    (b.setBB p v).bb p = v := by
  cases p <;> rfl

theorem bb_setBB_other (b : Board) (p q : Player) (v : Nat) (h : q ≠ p) :
    (b.setBB p v).bb q = b.bb q := by
  cases p <;> cases q <;> first | rfl | exact absurd rfl h

theorem testBit_place_self (b : Board) (pos : Int) (p : Player) (c : Nat) :
    ((b.place pos p).bb p).testBit c
      = ((b.bb p).testBit c || decide (jsBit pos = c)) := by
  unfold Board.place
  rw [bb_setBB_self, Nat.testBit_or, Nat.one_shiftLeft, Nat.testBit_two_pow]

theorem bb_place_other (b : Board) (pos : Int) (p q : Player) (h : q ≠ p) :
    (b.place pos p).bb q = b.bb q := by
  unfold Board.place
  exact bb_setBB_other _ _ _ _ h

theorem testBit_clearMask {n : Nat} (hn : n < 32) (c : Nat) :
    ((4294967295 : Nat) ^^^ (1 <<< n)).testBit c
      = (decide (c < 32) && !(decide (n = c))) := by
  have h : (4294967295 : Nat) = 2 ^ 32 - 1 := by norm_num
  rw [h, Nat.testBit_xor, Nat.testBit_two_pow_sub_one, Nat.one_shiftLeft,
    Nat.testBit_two_pow]
  by_cases hc : c < 32 <;> by_cases hnc : n = c <;> simp [hc, hnc]
  omega

theorem testBit_removeMove_self (b : Board) (pos : Int) (p : Player) (c : Nat) :
    ((b.removeMove pos p).bb p).testBit c
      = ((b.bb p).testBit c && decide (c < 32) && !(decide (jsBit pos = c))) := by
  unfold Board.removeMove
  rw [bb_setBB_self, Nat.testBit_and, testBit_clearMask (jsBit_lt_32 pos)]
  cases (b.bb p).testBit c <;> simp

theorem bb_removeMove_other (b : Board) (pos : Int) (p q : Player) (h : q ≠ p) :
    (b.removeMove pos p).bb q = b.bb q := by
  unfold Board.removeMove
  exact bb_setBB_other _ _ _ _ h

theorem isCellOccupied_iff (b : Board) (pos : Int) :
    b.isCellOccupied pos
      = ((b.bb .X).testBit (jsBit pos) || (b.bb .O).testBit (jsBit pos)) := rfl

theorem accepts_iff (g : InfinitoeGame) (i : Int) :
    g.accepts i = true
      ↔ (g.status = .ONGOING ∧ g.board.isCellOccupied i = false) := by
  unfold InfinitoeGame.accepts
  cases h : g.board.isCellOccupied i <;> cases hs : g.status <;> simp [hs]

theorem history_setHistory_self (g : InfinitoeGame) (p : Player) (l : List Int) :
    (g.setHistory p l).history p = l := by
  cases p <;> rfl

theorem history_setHistory_other (g : InfinitoeGame) (p q : Player)
    (l : List Int) (h : q ≠ p) :
    (g.setHistory p l).history q = g.history q := by
  cases p <;> cases q <;> first | rfl | exact absurd rfl h

theorem makeMove_rejected (g : InfinitoeGame) (i : Int)
    (h : g.status ≠ .ONGOING ∨ g.board.isCellOccupied i = true) :
    g.makeMove i = .ok (g, { status := g.status, removed := none }) := by
  unfold InfinitoeGame.makeMove
  rw [if_pos h]

theorem board_makeMove_ok (b : Board) (pos : Int) (p : Player)
    (h0 : 0 ≤ pos) (h8 : pos ≤ 8) (hocc : b.isCellOccupied pos = false) :
    b.makeMove pos p = .ok (b.place pos p) := by
  unfold Board.makeMove
  rw [if_neg (by omega)]
  simp [hocc]

theorem makeMove_accepted (g : InfinitoeGame) (i : Int)
    (hs : g.status = .ONGOING) (hocc : g.board.isCellOccupied i = false)
    (h0 : 0 ≤ i) (h8 : i ≤ 8) :
    g.makeMove i = .ok (g.finishMove i (g.board.place i g.current)) := by
  unfold InfinitoeGame.makeMove
  rw [if_neg (by simp [hs, hocc]), board_makeMove_ok _ _ _ h0 h8 hocc]

theorem finishMove_short_eq (g : InfinitoeGame) (i : Int) (b1 : Board)
    (hlen : (g.history g.current).length ≤ 2) :
    g.finishMove i b1 =
      (if b1.hasWin g.current then
        ({ g.setHistory g.current (g.history g.current ++ [i]) with
            board := b1, status := g.current.winStatus },
         { status := g.current.winStatus, removed := none })
       else
        ({ g.setHistory g.current (g.history g.current ++ [i]) with
            board := b1, current := g.current.other },
         { status := g.status, removed := none })) := by
  have hc : ¬ MAX_MOVES_PER_PLAYER < (g.history g.current ++ [i]).length := by
    simp only [List.length_append, List.length_cons, List.length_nil,
      MAX_MOVES_PER_PLAYER]
    omega
  simp only [InfinitoeGame.finishMove, if_neg hc]

theorem finishMove_evict_eq (g : InfinitoeGame) (i : Int) (b1 : Board)
    (h0 : Int) (t : List Int)
    (hh : g.history g.current = h0 :: t) (hlen : t.length = 2) :
    g.finishMove i b1 =
      (if (b1.removeMove h0 g.current).hasWin g.current then
        ({ g.setHistory g.current (t ++ [i]) with
            board := b1.removeMove h0 g.current, status := g.current.winStatus },
         { status := g.current.winStatus, removed := some h0 })
       else
        ({ g.setHistory g.current (t ++ [i]) with
            board := b1.removeMove h0 g.current, current := g.current.other },
         { status := g.status, removed := some h0 })) := by
  have hc : MAX_MOVES_PER_PLAYER < (h0 :: (t ++ [i])).length := by
    simp only [List.length_append, List.length_cons, List.length_nil, hlen,
      MAX_MOVES_PER_PLAYER]
    omega
  simp only [InfinitoeGame.finishMove, hh, List.cons_append, if_pos hc]

/-!
### Traces of the game

`ReachLog g lx lo` says state `g` arises from a fresh game by a sequence of
`makeMove` calls, where `lx` (resp. `lo`) lists, oldest first, every index
for which the guard accepted a move of `X` (resp. `O`). A rejected call
leaves the state and both logs unchanged; a call that throws changes
nothing.
-/

def plog : Player → List Int → List Int → List Int
  | .X, lx, _ => lx
  | .O, _, lo => lo

def logPush (g : InfinitoeGame) (i : Int) (p : Player) (l : List Int) :
    List Int :=
  if g.accepts i && g.current == p then l ++ [i] else l

inductive ReachLog : InfinitoeGame → List Int → List Int → Prop where
  | init : ReachLog InfinitoeGame.init [] []
  | step {g : InfinitoeGame} {lx lo : List Int} {i : Int} {g' : InfinitoeGame}
      {r : MoveResult} :
      ReachLog g lx lo → g.makeMove i = .ok (g', r) →
      ReachLog g' (logPush g i .X lx) (logPush g i .O lo)

/-- The sliding window of a full per-mark log: its last
`MAX_MOVES_PER_PLAYER` entries. -/
def windowOf (l : List Int) : List Int :=
  l.drop (l.length - MAX_MOVES_PER_PLAYER)

theorem windowOf_of_le {l : List Int} (h : l.length ≤ 3) : windowOf l = l := by
  unfold windowOf MAX_MOVES_PER_PLAYER
  rw [Nat.sub_eq_zero_of_le h, List.drop_zero]

theorem windowOf_length (l : List Int) :
    (windowOf l).length = min 3 l.length := by
  simp only [windowOf, MAX_MOVES_PER_PLAYER, List.length_drop]
  omega

theorem windowOf_append_short {l : List Int} (i : Int) (h : l.length ≤ 2) :
    windowOf (l ++ [i]) = l ++ [i] := by
  apply windowOf_of_le
  simp only [List.length_append, List.length_cons, List.length_nil]
  omega

theorem windowOf_append_long {l : List Int} (i : Int) (h : 3 ≤ l.length) :
    windowOf (l ++ [i]) = (windowOf l).tail ++ [i] := by
  unfold windowOf MAX_MOVES_PER_PLAYER
  rw [List.tail_drop, List.length_append, List.length_cons, List.length_nil,
    List.drop_append_of_le_length (by omega)]
  have he : l.length + 1 - 3 = l.length - 3 + 1 := by omega
  rw [he]

/-- The state invariant tying an `InfinitoeGame` to its per-mark acceptance
logs: each history is the sliding window of its log, history entries are
cells in `[0,8]`, each history is duplicate-free, the two histories are
disjoint, and each bitboard holds exactly the cells of its history. -/
structure GameInv (g : InfinitoeGame) (lx lo : List Int) : Prop where
  hw : ∀ p, g.history p = windowOf (plog p lx lo)
  hent : ∀ p, ∀ e ∈ g.history p, 0 ≤ e ∧ e ≤ 8
  hndp : ∀ p, (g.history p).Nodup
  hdisj : ∀ (c : Int) (p q : Player), p ≠ q → c ∈ g.history p → c ∈ g.history q → False
  hbb : ∀ p, ∀ c : Nat, (g.board.bb p).testBit c = decide ((c : Int) ∈ g.history p)

theorem current_setHistory (g : InfinitoeGame) (p : Player) (l : List Int) :
    (g.setHistory p l).current = g.current := by
  cases p <;> rfl

theorem status_setHistory (g : InfinitoeGame) (p : Player) (l : List Int) :
    (g.setHistory p l).status = g.status := by
  cases p <;> rfl

theorem history_update_bs (x : InfinitoeGame) (b : Board) (s : GameStatus)
    (q : Player) :
    InfinitoeGame.history { x with board := b, status := s } q
      = x.history q := by
  cases q <;> rfl

theorem history_update_bc (x : InfinitoeGame) (b : Board) (p : Player)
    (q : Player) :
    InfinitoeGame.history { x with board := b, current := p } q
      = x.history q := by
  cases q <;> rfl

theorem finishMove_board_short (g : InfinitoeGame) (i : Int) (b1 : Board)
    (hlen : (g.history g.current).length ≤ 2) :
    (g.finishMove i b1).1.board = b1 := by
  rw [finishMove_short_eq g i b1 hlen]
  split <;> rfl

theorem finishMove_histcur_short (g : InfinitoeGame) (i : Int) (b1 : Board)
    (hlen : (g.history g.current).length ≤ 2) :
    (g.finishMove i b1).1.history g.current = g.history g.current ++ [i] := by
  rw [finishMove_short_eq g i b1 hlen]
  split
  · rw [history_update_bs, history_setHistory_self]
  · rw [history_update_bc, history_setHistory_self]

theorem finishMove_removed_short (g : InfinitoeGame) (i : Int) (b1 : Board)
    (hlen : (g.history g.current).length ≤ 2) :
    (g.finishMove i b1).2.removed = none := by
  rw [finishMove_short_eq g i b1 hlen]
  split <;> rfl

theorem finishMove_board_evict (g : InfinitoeGame) (i : Int) (b1 : Board)
    (h0 : Int) (t : List Int)
    (hh : g.history g.current = h0 :: t) (hlen : t.length = 2) :
    (g.finishMove i b1).1.board = b1.removeMove h0 g.current := by
  rw [finishMove_evict_eq g i b1 h0 t hh hlen]
  split <;> rfl

theorem finishMove_histcur_evict (g : InfinitoeGame) (i : Int) (b1 : Board)
    (h0 : Int) (t : List Int)
    (hh : g.history g.current = h0 :: t) (hlen : t.length = 2) :
    (g.finishMove i b1).1.history g.current = t ++ [i] := by
  rw [finishMove_evict_eq g i b1 h0 t hh hlen]
  split
  · rw [history_update_bs, history_setHistory_self]
  · rw [history_update_bc, history_setHistory_self]

theorem finishMove_removed_evict (g : InfinitoeGame) (i : Int) (b1 : Board)
    (h0 : Int) (t : List Int)
    (hh : g.history g.current = h0 :: t) (hlen : t.length = 2) :
    (g.finishMove i b1).2.removed = some h0 := by
  rw [finishMove_evict_eq g i b1 h0 t hh hlen]
  split <;> rfl

theorem finishMove_histother_short (g : InfinitoeGame) (i : Int) (b1 : Board)
    (hlen : (g.history g.current).length ≤ 2) (q : Player)
    (hq : q ≠ g.current) :
    (g.finishMove i b1).1.history q = g.history q := by
  rw [finishMove_short_eq g i b1 hlen]
  split
  · rw [history_update_bs, history_setHistory_other _ _ _ _ hq]
  · rw [history_update_bc, history_setHistory_other _ _ _ _ hq]

theorem finishMove_histother_evict (g : InfinitoeGame) (i : Int) (b1 : Board)
    (h0 : Int) (t : List Int)
    (hh : g.history g.current = h0 :: t) (hlen : t.length = 2) (q : Player)
    (hq : q ≠ g.current) :
    (g.finishMove i b1).1.history q = g.history q := by
  rw [finishMove_evict_eq g i b1 h0 t hh hlen]
  split
  · rw [history_update_bs, history_setHistory_other _ _ _ _ hq]
  · rw [history_update_bc, history_setHistory_other _ _ _ _ hq]

theorem not_mem_of_unoccupied {g : InfinitoeGame} {lx lo : List Int} {i : Int}
    (inv : GameInv g lx lo) (hocc : g.board.isCellOccupied i = false)
    (h0 : 0 ≤ i) (h8 : i ≤ 8) (p : Player) : i ∉ g.history p := by
  intro hmem
  have hc := inv.hbb p i.toNat
  rw [Int.toNat_of_nonneg h0, decide_eq_true hmem] at hc
  unfold Board.isCellOccupied at hocc
  rw [jsBit_eq_toNat h0 h8] at hocc
  rcases Bool.or_eq_false_iff.mp hocc with ⟨hX, hO⟩
  cases p
  · rw [show g.board.bb .X = g.board.bbX from rfl, hX] at hc
    cases hc
  · rw [show g.board.bb .O = g.board.bbO from rfl, hO] at hc
    cases hc

theorem testBit_place_char (b : Board) (pos : Int) (p : Player) (c : Nat)
    (h0 : 0 ≤ pos) (h8 : pos ≤ 8) :
    ((b.place pos p).bb p).testBit c
      = ((b.bb p).testBit c || decide ((c : Int) = pos)) := by
  rw [testBit_place_self, jsBit_eq_toNat h0 h8]
  congr 1
  by_cases h : (c : Int) = pos
  · have h' : pos.toNat = c := by omega
    simp [h, h']
  · have h' : pos.toNat ≠ c := by omega
    simp [h, h']

theorem testBit_remove_char (b : Board) (pos : Int) (p : Player) (c : Nat)
    (h0 : 0 ≤ pos) (h8 : pos ≤ 8) (hc : c < 32) :
    ((b.removeMove pos p).bb p).testBit c
      = ((b.bb p).testBit c && !decide ((c : Int) = pos)) := by
  rw [testBit_removeMove_self, jsBit_eq_toNat h0 h8]
  have hdc : decide (c < 32) = true := by simp [hc]
  rw [hdc]
  have : decide (pos.toNat = c) = decide ((c : Int) = pos) := by
    by_cases h : (c : Int) = pos
    · have h' : pos.toNat = c := by omega
      simp [h, h']
    · have h' : pos.toNat ≠ c := by omega
      simp [h, h']
  rw [this]
  cases (b.bb p).testBit c <;> simp

theorem testBit_remove_high (b : Board) (pos : Int) (p : Player) (c : Nat)
    (hc : ¬ c < 32) :
    ((b.removeMove pos p).bb p).testBit c = false := by
  rw [testBit_removeMove_self]
  have hdc : decide (c < 32) = false := by simp [hc]
  rw [hdc]
  cases (b.bb p).testBit c <;> simp

theorem plog_logPush (g : InfinitoeGame) (i : Int) (lx lo : List Int)
    (p : Player) :
    plog p (logPush g i .X lx) (logPush g i .O lo)
      = logPush g i p (plog p lx lo) := by
  cases p <;> rfl

theorem logPush_accept {g : InfinitoeGame} {i : Int} (ha : g.accepts i = true)
    (p : Player) (l : List Int) :
    logPush g i p l = if g.current = p then l ++ [i] else l := by
  unfold logPush
  rw [ha]
  by_cases h : g.current = p
  · simp [h]
  · simp [h]

theorem logPush_reject {g : InfinitoeGame} {i : Int} (ha : g.accepts i = false)
    (p : Player) (l : List Int) :
    logPush g i p l = l := by
  unfold logPush
  rw [ha]
  simp

theorem finish_generic (g : InfinitoeGame) (i : Int) (b1 : Board) :
    ∃ (b2 : Board) (h2 : List Int) (rm : Option Int), g.finishMove i b1 =
      (if b2.hasWin g.current then
        ({ g.setHistory g.current h2 with
            board := b2, status := g.current.winStatus },
         { status := g.current.winStatus, removed := rm })
       else
        ({ g.setHistory g.current h2 with
            board := b2, current := g.current.other },
         { status := g.status, removed := rm })) :=
  ⟨_, _, _, rfl⟩

theorem finishMove_status_current (g : InfinitoeGame) (i : Int) (b1 : Board) :
    ((g.finishMove i b1).1.board.hasWin g.current = true →
        (g.finishMove i b1).1.status = g.current.winStatus
        ∧ (g.finishMove i b1).1.current = g.current
        ∧ (g.finishMove i b1).2.status = g.current.winStatus)
    ∧ ((g.finishMove i b1).1.board.hasWin g.current = false →
        (g.finishMove i b1).1.status = g.status
        ∧ (g.finishMove i b1).1.current = g.current.other
        ∧ (g.finishMove i b1).2.status = g.status) := by
  obtain ⟨b2, h2, rm, heq⟩ := finish_generic g i b1
  rw [heq]
  by_cases hw : b2.hasWin g.current = true
  · rw [if_pos hw]
    constructor
    · intro _
      exact ⟨rfl, current_setHistory g g.current h2, rfl⟩
    · intro hf
      rw [show ({ g.setHistory g.current h2 with
          board := b2, status := g.current.winStatus } : InfinitoeGame).board
          = b2 from rfl, hw] at hf
      cases hf
  · rw [if_neg hw]
    constructor
    · intro ht
      rw [show ({ g.setHistory g.current h2 with
          board := b2, current := g.current.other } : InfinitoeGame).board
          = b2 from rfl] at ht
      exact absurd ht hw
    · intro _
      exact ⟨status_setHistory g g.current h2, rfl, rfl⟩

theorem gameInv_init : GameInv InfinitoeGame.init [] [] := by
  refine ⟨?_, ?_, ?_, ?_, ?_⟩
  · intro p
    cases p <;> rfl
  · intro p e he
    cases p <;> cases he
  · intro p
    cases p <;> exact List.nodup_nil
  · intro c p q hpq hcp
    cases p <;> cases hcp
  · intro p c
    cases p <;> simp [InfinitoeGame.init, Board.bb, InfinitoeGame.history]

theorem GameInv.step {g : InfinitoeGame} {lx lo : List Int} {i : Int}
    {g' : InfinitoeGame} {r : MoveResult}
    (inv : GameInv g lx lo) (hm : g.makeMove i = .ok (g', r)) :
    GameInv g' (logPush g i .X lx) (logPush g i .O lo) := by
  by_cases ha : g.accepts i = true
  · obtain ⟨hs, hocc⟩ := (accepts_iff g i).mp ha
    have hrange : ¬(i < 0 ∨ 8 < i) := by
      intro hr
      have herr : g.makeMove i = .error ("Invalid position: " ++ toString i) := by
        unfold InfinitoeGame.makeMove
        rw [if_neg (by simp [hs, hocc])]
        unfold Board.makeMove
        rw [if_pos hr]
      rw [herr] at hm
      cases hm
    have h0 : 0 ≤ i := by omega
    have h8 : i ≤ 8 := by omega
    rw [makeMove_accepted g i hs hocc h0 h8] at hm
    have hpair : g.finishMove i (g.board.place i g.current) = (g', r) := by
      injection hm
    have hg' : (g.finishMove i (g.board.place i g.current)).1 = g' := by
      rw [hpair]
    have hfresh : ∀ p : Player, i ∉ g.history p :=
      not_mem_of_unoccupied inv hocc h0 h8
    have hlogcur : logPush g i g.current (plog g.current lx lo)
        = plog g.current lx lo ++ [i] := by
      rw [logPush_accept ha, if_pos rfl]
    have hlogoth : ∀ q, q ≠ g.current →
        logPush g i q (plog q lx lo) = plog q lx lo := by
      intro q hq
      rw [logPush_accept ha, if_neg (fun h => hq h.symm)]
    have hwc := inv.hw g.current
    subst hg'
    by_cases hshort : (g.history g.current).length ≤ 2
    · -- no eviction
      have hb := finishMove_board_short g i (g.board.place i g.current) hshort
      have hhc := finishMove_histcur_short g i (g.board.place i g.current) hshort
      have hho := finishMove_histother_short g i (g.board.place i g.current) hshort
      have hLlen : (plog g.current lx lo).length ≤ 2 := by
        have hl := windowOf_length (plog g.current lx lo)
        rw [← hwc] at hl
        omega
      refine ⟨?_, ?_, ?_, ?_, ?_⟩
      · intro p
        rw [plog_logPush]
        by_cases hp : p = g.current
        · subst hp
          rw [hhc, hlogcur, windowOf_append_short _ hLlen, hwc,
            windowOf_of_le (by omega)]
        · rw [hho p hp, hlogoth p hp, inv.hw p]
      · intro p e he
        by_cases hp : p = g.current
        · subst hp
          rw [hhc] at he
          rcases List.mem_append.mp he with h | h
          · exact inv.hent g.current e h
          · rw [List.mem_singleton] at h
            subst h
            exact ⟨h0, h8⟩
        · rw [hho p hp] at he
          exact inv.hent p e he
      · intro p
        by_cases hp : p = g.current
        · subst hp
          rw [hhc]
          exact (inv.hndp g.current).append (List.nodup_singleton i)
            (fun a hae hai => by
              rw [List.mem_singleton] at hai
              subst hai
              exact hfresh g.current hae)
        · rw [hho p hp]
          exact inv.hndp p
      · intro c p q hpq hcp hcq
        by_cases hp : p = g.current <;> by_cases hq : q = g.current
        · exact hpq (hp.trans hq.symm)
        · subst hp
          rw [hhc] at hcp
          rw [hho q hq] at hcq
          rcases List.mem_append.mp hcp with h | h
          · exact inv.hdisj c g.current q hpq h hcq
          · rw [List.mem_singleton] at h
            subst h
            exact hfresh q hcq
        · subst hq
          rw [hhc] at hcq
          rw [hho p hp] at hcp
          rcases List.mem_append.mp hcq with h | h
          · exact inv.hdisj c p g.current hpq hcp h
          · rw [List.mem_singleton] at h
            subst h
            exact hfresh p hcp
        · rw [hho p hp] at hcp
          rw [hho q hq] at hcq
          exact inv.hdisj c p q hpq hcp hcq
      · intro p c
        rw [hb]
        by_cases hp : p = g.current
        · subst hp
          rw [testBit_place_char g.board i g.current c h0 h8,
            inv.hbb g.current c, hhc]
          simp only [List.mem_append, List.mem_singleton]
          by_cases hA : (c : Int) ∈ g.history g.current <;>
            by_cases hB : (c : Int) = i <;> simp [hA, hB]
        · rw [bb_place_other g.board i g.current p hp, inv.hbb p c, hho p hp]
    · -- eviction
      have hlen3 : (g.history g.current).length ≤ 3 := by
        have hl := windowOf_length (plog g.current lx lo)
        rw [← hwc] at hl
        omega
      rcases hh : g.history g.current with _ | ⟨hd, t⟩
      · rw [hh] at hshort
        simp at hshort
      have ht2 : t.length = 2 := by
        rw [hh] at hshort hlen3
        simp only [List.length_cons] at hshort hlen3
        omega
      have hb := finishMove_board_evict g i (g.board.place i g.current) hd t hh ht2
      have hhc := finishMove_histcur_evict g i (g.board.place i g.current) hd t hh ht2
      have hho := finishMove_histother_evict g i (g.board.place i g.current) hd t hh ht2
      have hL3 : 3 ≤ (plog g.current lx lo).length := by
        have hl := windowOf_length (plog g.current lx lo)
        rw [← hwc] at hl
        rw [hh] at hl
        simp only [List.length_cons] at hl
        omega
      have hdt : hd ∉ t := by
        have hn := inv.hndp g.current
        rw [hh] at hn
        exact (List.nodup_cons.mp hn).1
      have hfr : i ∉ hd :: t := by
        have hf := hfresh g.current
        rwa [hh] at hf
      have hid : i ≠ hd := fun h => hfr (h ▸ List.mem_cons_self hd t)
      have hit : i ∉ t := fun h => hfr (List.mem_cons_of_mem hd h)
      have hdmem : hd ∈ g.history g.current := by
        rw [hh]
        exact List.mem_cons_self hd t
      obtain ⟨hd0, hd8⟩ := inv.hent g.current hd hdmem
      have htsub : ∀ e, e ∈ t → e ∈ g.history g.current := by
        intro e het
        rw [hh]
        exact List.mem_cons_of_mem hd het
      refine ⟨?_, ?_, ?_, ?_, ?_⟩
      · intro p
        rw [plog_logPush]
        by_cases hp : p = g.current
        · subst hp
          rw [hhc, hlogcur, windowOf_append_long _ hL3, ← hwc, hh,
            List.tail_cons]
        · rw [hho p hp, hlogoth p hp, inv.hw p]
      · intro p e he
        by_cases hp : p = g.current
        · subst hp
          rw [hhc] at he
          rcases List.mem_append.mp he with h | h
          · exact inv.hent g.current e (htsub e h)
          · rw [List.mem_singleton] at h
            subst h
            exact ⟨h0, h8⟩
        · rw [hho p hp] at he
          exact inv.hent p e he
      · intro p
        by_cases hp : p = g.current
        · subst hp
          rw [hhc]
          have hntc : t.Nodup := by
            have hn := inv.hndp g.current
            rw [hh] at hn
            exact (List.nodup_cons.mp hn).2
          exact hntc.append (List.nodup_singleton i)
            (fun a hae hai => by
              rw [List.mem_singleton] at hai
              subst hai
              exact hit hae)
        · rw [hho p hp]
          exact inv.hndp p
      · intro c p q hpq hcp hcq
        by_cases hp : p = g.current <;> by_cases hq : q = g.current
        · exact hpq (hp.trans hq.symm)
        · subst hp
          rw [hhc] at hcp
          rw [hho q hq] at hcq
          rcases List.mem_append.mp hcp with h | h
          · exact inv.hdisj c g.current q hpq (htsub c h) hcq
          · rw [List.mem_singleton] at h
            subst h
            exact hfresh q hcq
        · subst hq
          rw [hhc] at hcq
          rw [hho p hp] at hcp
          rcases List.mem_append.mp hcq with h | h
          · exact inv.hdisj c p g.current hpq hcp (htsub c h)
          · rw [List.mem_singleton] at h
            subst h
            exact hfresh p hcp
        · rw [hho p hp] at hcp
          rw [hho q hq] at hcq
          exact inv.hdisj c p q hpq hcp hcq
      · intro p c
        rw [hb]
        by_cases hp : p = g.current
        · subst hp
          by_cases hc32 : c < 32
          · rw [testBit_remove_char (g.board.place i g.current) hd g.current c
                hd0 hd8 hc32,
              testBit_place_char g.board i g.current c h0 h8,
              inv.hbb g.current c, hhc, hh]
            by_cases e1 : (c : Int) = hd
            · have e2 : ¬ (c : Int) ∈ t := by
                rw [e1]
                exact hdt
              have e3 : ¬ (c : Int) = i := by
                rw [e1]
                intro h
                exact hid h.symm
              simp [e1, e2, e3]
              exact ⟨hdt, fun h => hid h.symm⟩
            · simp [e1]
          · rw [testBit_remove_high _ _ _ _ hc32]
            symm
            rw [decide_eq_false_iff_not]
            intro hmem
            rw [hhc] at hmem
            have hle : (c : Int) ≤ 8 := by
              rcases List.mem_append.mp hmem with h | h
              · exact (inv.hent g.current _ (htsub _ h)).2
              · rw [List.mem_singleton] at h
                rw [h]
                exact h8
            omega
        · rw [bb_removeMove_other _ hd g.current p hp,
            bb_place_other g.board i g.current p hp, inv.hbb p c, hho p hp]
  · -- rejected move: no state change and no log change
    have hna : g.accepts i = false := by
      cases hacc : g.accepts i
      · rfl
      · exact absurd hacc ha
    have hrej : g.status ≠ .ONGOING ∨ g.board.isCellOccupied i = true := by
      by_contra hcon
      push_neg at hcon
      obtain ⟨h1, h2⟩ := hcon
      have hacc : g.accepts i = true := (accepts_iff g i).mpr ⟨h1, by
        cases hb : g.board.isCellOccupied i
        · rfl
        · exact absurd hb h2⟩
      rw [hacc] at hna
      cases hna
    rw [makeMove_rejected g i hrej] at hm
    have hpair : (g, ({ status := g.status, removed := none } : MoveResult))
        = (g', r) := by
      injection hm
    have hg : g = g' := congrArg Prod.fst hpair
    subst hg
    rw [logPush_reject hna, logPush_reject hna]
    exact inv

theorem inv_of_reachLog {g : InfinitoeGame} {lx lo : List Int}
    (h : ReachLog g lx lo) : GameInv g lx lo := by
  induction h with
  | init => exact gameInv_init
  | step hprev hmv ih => exact ih.step hmv

/-- The number of cells among `0..8` occupied by one mark. -/
def Board.occCount (b : Board) (p : Player) : Nat :=
  ((List.range 9).filter (fun c => (b.bb p).testBit c)).length

/-- The number of cells among `0..8` occupied by either mark. -/
def Board.totalOcc (b : Board) : Nat :=
  ((List.range 9).filter (fun (c : Nat) => b.isCellOccupied (c : Int))).length

theorem hist_len_le {g : InfinitoeGame} {lx lo : List Int}
    (inv : GameInv g lx lo) (p : Player) : (g.history p).length ≤ 3 := by
  rw [inv.hw p, windowOf_length]
  omega

theorem occCount_le {g : InfinitoeGame} {lx lo : List Int}
    (inv : GameInv g lx lo) (p : Player) : g.board.occCount p ≤ 3 := by
  unfold Board.occCount
  have hnd : ((List.range 9).filter
      (fun c => (g.board.bb p).testBit c)).Nodup :=
    (List.nodup_range 9).filter _
  have hsub : ((List.range 9).filter (fun c => (g.board.bb p).testBit c))
      ⊆ (g.history p).map Int.toNat := by
    intro c hc
    have ht := (List.mem_filter.mp hc).2
    have hb := inv.hbb p c
    rw [ht] at hb
    have hmem : (c : Int) ∈ g.history p := of_decide_eq_true hb.symm
    exact List.mem_map.mpr ⟨(c : Int), hmem, by omega⟩
  have hlen : ((g.history p).map Int.toNat).length ≤ 3 := by
    rw [List.length_map]
    exact hist_len_le inv p
  exact Nat.le_trans (List.subperm_of_subset hnd hsub).length_le hlen

theorem totalOcc_le {g : InfinitoeGame} {lx lo : List Int}
    (inv : GameInv g lx lo) : g.board.totalOcc ≤ 6 := by
  unfold Board.totalOcc
  have hnd : ((List.range 9).filter
      (fun (c : Nat) => g.board.isCellOccupied (c : Int))).Nodup :=
    (List.nodup_range 9).filter _
  have hsub : ((List.range 9).filter
      (fun (c : Nat) => g.board.isCellOccupied (c : Int)))
      ⊆ (g.histX ++ g.histO).map Int.toNat := by
    intro c hc
    obtain ⟨hcr, ht⟩ := List.mem_filter.mp hc
    have hc9 : c < 9 := List.mem_range.mp hcr
    have hj : jsBit (c : Int) = c := by
      rw [jsBit_eq_toNat (by omega) (by omega)]
      omega
    unfold Board.isCellOccupied at ht
    rw [hj] at ht
    rcases Bool.or_eq_true_iff.mp ht with hX | hO
    · have hb := inv.hbb .X c
      rw [show g.board.bb .X = g.board.bbX from rfl, hX] at hb
      have hmem : (c : Int) ∈ g.histX := of_decide_eq_true hb.symm
      exact List.mem_map.mpr
        ⟨(c : Int), List.mem_append_left _ hmem, by omega⟩
    · have hb := inv.hbb .O c
      rw [show g.board.bb .O = g.board.bbO from rfl, hO] at hb
      have hmem : (c : Int) ∈ g.histO := of_decide_eq_true hb.symm
      exact List.mem_map.mpr
        ⟨(c : Int), List.mem_append_right _ hmem, by omega⟩
  have hlen : ((g.histX ++ g.histO).map Int.toNat).length ≤ 6 := by
    rw [List.length_map, List.length_append]
    have hX := hist_len_le inv .X
    have hO := hist_len_le inv .O
    exact Nat.add_le_add hX hO
  exact Nat.le_trans (List.subperm_of_subset hnd hsub).length_le hlen

theorem legal_ne_nil {g : InfinitoeGame} {lx lo : List Int}
    (inv : GameInv g lx lo) : g.board.getLegalMoves ≠ [] := by
  intro hnil
  unfold Board.getLegalMoves at hnil
  rw [List.map_eq_nil_iff, List.filter_eq_nil_iff] at hnil
  have hall : ∀ c ∈ List.range 9,
      g.board.isCellOccupied ((c : Nat) : Int) = true := by
    intro c hc
    have hn := hnil c hc
    cases hocc : g.board.isCellOccupied (c : Int)
    · exact absurd (by rw [hocc]; rfl) hn
    · rfl
  have hfull : ((List.range 9).filter
      (fun (c : Nat) => g.board.isCellOccupied (c : Int))) = List.range 9 :=
    List.filter_eq_self.mpr (fun a ha => hall a ha)
  have hle := totalOcc_le inv
  unfold Board.totalOcc at hle
  rw [hfull] at hle
  simp at hle

theorem windowOf_cons {l : List Int} (h : 3 ≤ l.length) :
    ∃ c t, windowOf l = c :: t ∧ t.length = 2 ∧ l[l.length - 3]? = some c := by
  have hlen : (windowOf l).length = 3 := by
    rw [windowOf_length]
    omega
  rcases hw : windowOf l with _ | ⟨c, t⟩
  · rw [hw] at hlen
    cases hlen
  · refine ⟨c, t, rfl, ?_, ?_⟩
    · rw [hw] at hlen
      simpa using hlen
    · have hget : (windowOf l)[0]? = some c := by
        rw [hw]
        simp
      unfold windowOf MAX_MOVES_PER_PLAYER at hget
      rw [List.getElem?_drop] at hget
      simpa using hget

/-! ### Claim theorems -/

/-- C2: for every game state and index, if the status is not `ONGOING` or
the cell is occupied, `makeMove` does not throw: it returns `Except.ok` with
the current status and `removed = null`, and the resulting state is the very
same record, so board occupancy, both histories, the current player and the
status are unchanged. -/
theorem makeMove_rejection_noop (g : InfinitoeGame) (i : Int)
    (h : g.status ≠ .ONGOING ∨ g.board.isCellOccupied i = true) :
    g.makeMove i = .ok (g, { status := g.status, removed := none }) :=
  makeMove_rejected g i h

theorem makeMove_rejection_noop_witness :
    ((⟨⟨1, 0⟩, .O, [0], [], .ONGOING⟩ : InfinitoeGame).status ≠ .ONGOING
        ∨ (⟨⟨1, 0⟩, .O, [0], [], .ONGOING⟩ : InfinitoeGame).board.isCellOccupied
            0 = true)
    ∧ (⟨⟨1, 0⟩, .O, [0], [], .ONGOING⟩ : InfinitoeGame).makeMove 0
        = .ok (⟨⟨1, 0⟩, .O, [0], [], .ONGOING⟩,
            { status := .ONGOING, removed := none }) :=
  ⟨Or.inr (by decide),
   makeMove_rejection_noop ⟨⟨1, 0⟩, .O, [0], [], .ONGOING⟩ 0
     (Or.inr (by decide))⟩

/-- C6: on every accepted move, if the mover's post-eviction board satisfies
`hasWin` for the mover then the status becomes that mover's win and the
current player does not change; otherwise the status stays `ONGOING` and the
current player switches. A non-`ONGOING` (won) status is terminal: any
further `makeMove` leaves the state unchanged, so the status only leaves a
won state via `reset()`. -/
theorem makeMove_status_transition :
    (∀ (g : InfinitoeGame) (i : Int) (g' : InfinitoeGame) (r : MoveResult),
      g.accepts i = true → g.makeMove i = .ok (g', r) →
      (g'.board.hasWin g.current = true →
        g'.status = g.current.winStatus ∧ r.status = g.current.winStatus
          ∧ g'.current = g.current)
      ∧ (g'.board.hasWin g.current = false →
        g'.status = .ONGOING ∧ r.status = .ONGOING
          ∧ g'.current = g.current.other))
    ∧ (∀ (g : InfinitoeGame) (i : Int), g.status ≠ .ONGOING →
      g.makeMove i = .ok (g, { status := g.status, removed := none })) := by
  constructor
  · intro g i g' r ha hm
    obtain ⟨hs, hocc⟩ := (accepts_iff g i).mp ha
    have hrange : ¬(i < 0 ∨ 8 < i) := by
      intro hr
      have herr : g.makeMove i = .error ("Invalid position: " ++ toString i) := by
        unfold InfinitoeGame.makeMove
        rw [if_neg (by simp [hs, hocc])]
        unfold Board.makeMove
        rw [if_pos hr]
      rw [herr] at hm
      cases hm
    have h0 : 0 ≤ i := by omega
    have h8 : i ≤ 8 := by omega
    rw [makeMove_accepted g i hs hocc h0 h8] at hm
    have hpair : g.finishMove i (g.board.place i g.current) = (g', r) := by
      injection hm
    have hg' : (g.finishMove i (g.board.place i g.current)).1 = g' :=
      congrArg Prod.fst hpair
    have hr' : (g.finishMove i (g.board.place i g.current)).2 = r :=
      congrArg Prod.snd hpair
    subst hg'
    subst hr'
    obtain ⟨hwin, hnowin⟩ :=
      finishMove_status_current g i (g.board.place i g.current)
    constructor
    · intro hw
      obtain ⟨ha1, ha2, ha3⟩ := hwin hw
      exact ⟨ha1, ha3, ha2⟩
    · intro hw
      obtain ⟨ha1, ha2, ha3⟩ := hnowin hw
      rw [hs] at ha1 ha3
      exact ⟨ha1, ha3, ha2⟩
  · intro g i hns
    exact makeMove_rejected g i (Or.inl hns)

theorem makeMove_status_transition_witness :
    ((⟨⟨3, 72⟩, .X, [0, 1], [3, 6], .ONGOING⟩ : InfinitoeGame).accepts 2 = true
      ∧ (⟨⟨3, 72⟩, .X, [0, 1], [3, 6], .ONGOING⟩ : InfinitoeGame).makeMove 2
          = .ok (⟨⟨7, 72⟩, .X, [0, 1, 2], [3, 6], .X_WIN⟩,
              { status := .X_WIN, removed := none })
      ∧ ((⟨⟨7, 72⟩, .X, [0, 1, 2], [3, 6], .X_WIN⟩ : InfinitoeGame).board.hasWin
            .X = true →
          (⟨⟨7, 72⟩, .X, [0, 1, 2], [3, 6], .X_WIN⟩ : InfinitoeGame).status
              = Player.X.winStatus
            ∧ ({ status := .X_WIN, removed := none } : MoveResult).status
              = Player.X.winStatus
            ∧ (⟨⟨7, 72⟩, .X, [0, 1, 2], [3, 6], .X_WIN⟩ : InfinitoeGame).current
              = .X))
    ∧ ((⟨⟨7, 72⟩, .X, [0, 1, 2], [3, 6], .X_WIN⟩ : InfinitoeGame).status
          ≠ .ONGOING
        ∧ (⟨⟨7, 72⟩, .X, [0, 1, 2], [3, 6], .X_WIN⟩ : InfinitoeGame).makeMove 5
          = .ok (⟨⟨7, 72⟩, .X, [0, 1, 2], [3, 6], .X_WIN⟩,
              { status := .X_WIN, removed := none })) := by
  refine ⟨⟨by decide, by rfl, ?_⟩, by decide, ?_⟩
  · intro hw
    exact ((makeMove_status_transition.1
      ⟨⟨3, 72⟩, .X, [0, 1], [3, 6], .ONGOING⟩ 2
      ⟨⟨7, 72⟩, .X, [0, 1, 2], [3, 6], .X_WIN⟩
      { status := .X_WIN, removed := none } (by decide) (by rfl)).1 hw)
  · exact makeMove_status_transition.2
      ⟨⟨7, 72⟩, .X, [0, 1, 2], [3, 6], .X_WIN⟩ 5 (by decide)

/-- C1: on a mark's 4th-or-later accepted move (history already holds 3
cells), `makeMove` first evicts the oldest cell `h0` of the mover's history
and only then evaluates the win condition: the returned status is the
mover's win exactly when the board with the new cell placed and `h0`
removed satisfies `hasWin`, and the resulting game's board is that
post-eviction board. In particular a placement completing a line only
together with the evicted cell yields status `ONGOING`. -/
theorem makeMove_win_post_eviction (g : InfinitoeGame) (i h0 : Int)
    (t : List Int) (hs : g.status = .ONGOING)
    (hocc : g.board.isCellOccupied i = false) (hi0 : 0 ≤ i) (hi8 : i ≤ 8)
    (hh : g.history g.current = h0 :: t) (ht : t.length = 2) :
    ∃ g', g.makeMove i = .ok (g',
        { status := if ((g.board.place i g.current).removeMove h0
              g.current).hasWin g.current = true
            then g.current.winStatus else .ONGOING,
          removed := some h0 })
      ∧ g'.board = (g.board.place i g.current).removeMove h0 g.current := by
  rw [makeMove_accepted g i hs hocc hi0 hi8,
      finishMove_evict_eq g i (g.board.place i g.current) h0 t hh ht]
  by_cases hw : ((g.board.place i g.current).removeMove h0 g.current).hasWin
      g.current = true
  · rw [if_pos hw, if_pos hw]
    exact ⟨{ g.setHistory g.current (t ++ [i]) with
        board := (g.board.place i g.current).removeMove h0 g.current,
        status := g.current.winStatus }, rfl, rfl⟩
  · rw [if_neg hw, if_neg hw]
    refine ⟨{ g.setHistory g.current (t ++ [i]) with
        board := (g.board.place i g.current).removeMove h0 g.current,
        current := g.current.other }, ?_, ?_⟩
    · rw [hs]
    · rfl

theorem makeMove_win_post_eviction_witness :
    ((⟨⟨35, 72⟩, .X, [0, 1, 5], [3, 6], .ONGOING⟩ : InfinitoeGame).status
        = .ONGOING
      ∧ (⟨⟨35, 72⟩, .X, [0, 1, 5], [3, 6], .ONGOING⟩ :
          InfinitoeGame).board.isCellOccupied 2 = false
      ∧ (⟨⟨35, 72⟩, .X, [0, 1, 5], [3, 6], .ONGOING⟩ :
          InfinitoeGame).history .X = 0 :: [1, 5]
      ∧ ([1, 5] : List Int).length = 2)
    ∧ ((⟨⟨35, 72⟩, .X, [0, 1, 5], [3, 6], .ONGOING⟩ :
          InfinitoeGame).board.place 2 .X).hasWin .X = true
    ∧ (((⟨⟨35, 72⟩, .X, [0, 1, 5], [3, 6], .ONGOING⟩ :
          InfinitoeGame).board.place 2 .X).removeMove 0 .X).hasWin .X = false
    ∧ (∃ g', (⟨⟨35, 72⟩, .X, [0, 1, 5], [3, 6], .ONGOING⟩ :
          InfinitoeGame).makeMove 2 = .ok (g',
            { status := if (((⟨⟨35, 72⟩, .X, [0, 1, 5], [3, 6], .ONGOING⟩ :
                  InfinitoeGame).board.place 2 .X).removeMove 0 .X).hasWin .X
                  = true
                then Player.X.winStatus else .ONGOING,
              removed := some 0 })
          ∧ g'.board = ((⟨⟨35, 72⟩, .X, [0, 1, 5], [3, 6], .ONGOING⟩ :
              InfinitoeGame).board.place 2 .X).removeMove 0 .X) :=
  ⟨⟨rfl, by decide, rfl, rfl⟩, by decide, by decide,
   makeMove_win_post_eviction ⟨⟨35, 72⟩, .X, [0, 1, 5], [3, 6], .ONGOING⟩
     2 0 [1, 5] rfl (by decide) (by decide) (by decide) rfl rfl⟩

/-- C10 counterexample: the claim asserts every integer index outside
`[0,8]` throws while the game is ongoing; but JavaScript's `1 << 32` wraps
to `1 << 0`, so after `X` occupies cell 0 the occupancy guard of
`makeMove(32)` triggers and the call is silently rejected (returns ok)
instead of throwing. -/
theorem makeMove_out_of_range_counterexample :
    InfinitoeGame.init.makeMove 0
      = .ok (⟨⟨1, 0⟩, .O, [0], [], .ONGOING⟩,
          { status := .ONGOING, removed := none })
    ∧ (⟨⟨1, 0⟩, .O, [0], [], .ONGOING⟩ : InfinitoeGame).status = .ONGOING
    ∧ ((32 : Int) < 0 ∨ 8 < (32 : Int))
    ∧ (⟨⟨1, 0⟩, .O, [0], [], .ONGOING⟩ : InfinitoeGame).makeMove 32
      = .ok (⟨⟨1, 0⟩, .O, [0], [], .ONGOING⟩,
          { status := .ONGOING, removed := none }) :=
  ⟨by rfl, rfl, by decide, by rfl⟩

/-- C10 (amended): while the status is `ONGOING`, a call with an index
outside `[0,8]` whose (mod-32 wrapped) occupancy test does not trigger
makes `Board.makeMove` throw its invalid-position error, which propagates
out of the public `makeMove`; the wrapped occupancy guard can only trigger
for an out-of-range index congruent mod 32 to an occupied cell. -/
theorem makeMove_out_of_range_error (g : InfinitoeGame) (i : Int)
    (hs : g.status = .ONGOING) (hr : i < 0 ∨ 8 < i)
    (hocc : g.board.isCellOccupied i = false) :
    g.makeMove i = .error ("Invalid position: " ++ toString i) := by
  unfold InfinitoeGame.makeMove
  rw [if_neg (by simp [hs, hocc])]
  unfold Board.makeMove
  rw [if_pos hr]

theorem makeMove_out_of_range_error_witness :
    (InfinitoeGame.init.status = .ONGOING
      ∧ ((9 : Int) < 0 ∨ 8 < (9 : Int))
      ∧ InfinitoeGame.init.board.isCellOccupied 9 = false)
    ∧ InfinitoeGame.init.makeMove 9
        = .error ("Invalid position: " ++ toString (9 : Int)) :=
  ⟨⟨rfl, by decide, by decide⟩,
   makeMove_out_of_range_error InfinitoeGame.init 9 rfl (by decide)
     (by decide)⟩

/-- The eight winning lines of the 3x3 grid under row-major indexing, as
cell sets: three rows, three columns, two diagonals. -/
def winningLines : List (List Nat) :=
  [[0, 1, 2], [3, 4, 5], [6, 7, 8],
   [0, 3, 6], [1, 4, 7], [2, 5, 8],
   [0, 4, 8], [2, 4, 6]]

theorem and_mask_eq_iff (bb m : Nat) :
    (bb &&& m = m) ↔ ∀ c : Nat, m.testBit c = true → bb.testBit c = true := by
  constructor
  · intro h c hc
    have ht := congrArg (fun x => x.testBit c) h
    simp only [Nat.testBit_and] at ht
    rw [hc] at ht
    simpa using ht
  · intro h
    apply Nat.eq_of_testBit_eq
    intro c
    rw [Nat.testBit_and]
    cases hm : m.testBit c
    · simp
    · simp [h c hm]

theorem mask_line_iff (bb m : Nat) (L : List Nat) (hm : m < 512)
    (hL : ∀ c : Nat, c < 9 → (m.testBit c = true ↔ c ∈ L))
    (hL9 : ∀ c ∈ L, c < 9) :
    (bb &&& m = m) ↔ ∀ c ∈ L, bb.testBit c = true := by
  rw [and_mask_eq_iff]
  constructor
  · intro h c hc
    exact h c ((hL c (hL9 c hc)).mpr hc)
  · intro h c hc
    have hc9 : c < 9 := by
      by_contra hge
      have hf : m.testBit c = false := Nat.testBit_lt_two_pow (by
        calc m < 512 := hm
        _ = 2 ^ 9 := by norm_num
        _ ≤ 2 ^ c := Nat.pow_le_pow_right (by norm_num) (by omega))
      rw [hf] at hc
      cases hc
    exact h c ((hL c hc9).mp hc)

/-- C7: `Board.hasWin(mark)` returns true exactly when the mark's cell set
contains one of the eight winning lines of the 3x3 grid: the rows
`{0,1,2}`, `{3,4,5}`, `{6,7,8}`, the columns `{0,3,6}`, `{1,4,7}`,
`{2,5,8}`, and the diagonals `{0,4,8}`, `{2,4,6}`. -/
theorem hasWin_iff_winning_line (b : Board) (p : Player) :
    b.hasWin p = true
      ↔ ∃ L ∈ winningLines, ∀ c ∈ L, (b.bb p).testBit c = true := by
  unfold Board.hasWin WINNING_MASKS
  rw [List.any_eq_true]
  constructor
  · rintro ⟨m, hm, hOK⟩
    rw [beq_iff_eq] at hOK
    fin_cases hm
    · exact ⟨[6, 7, 8], by decide, (mask_line_iff (b.bb p) 448 [6, 7, 8]
        (by norm_num) (by decide) (by decide)).mp hOK⟩
    · exact ⟨[3, 4, 5], by decide, (mask_line_iff (b.bb p) 56 [3, 4, 5]
        (by norm_num) (by decide) (by decide)).mp hOK⟩
    · exact ⟨[0, 1, 2], by decide, (mask_line_iff (b.bb p) 7 [0, 1, 2]
        (by norm_num) (by decide) (by decide)).mp hOK⟩
    · exact ⟨[2, 5, 8], by decide, (mask_line_iff (b.bb p) 292 [2, 5, 8]
        (by norm_num) (by decide) (by decide)).mp hOK⟩
    · exact ⟨[1, 4, 7], by decide, (mask_line_iff (b.bb p) 146 [1, 4, 7]
        (by norm_num) (by decide) (by decide)).mp hOK⟩
    · exact ⟨[0, 3, 6], by decide, (mask_line_iff (b.bb p) 73 [0, 3, 6]
        (by norm_num) (by decide) (by decide)).mp hOK⟩
    · exact ⟨[0, 4, 8], by decide, (mask_line_iff (b.bb p) 273 [0, 4, 8]
        (by norm_num) (by decide) (by decide)).mp hOK⟩
    · exact ⟨[2, 4, 6], by decide, (mask_line_iff (b.bb p) 84 [2, 4, 6]
        (by norm_num) (by decide) (by decide)).mp hOK⟩
  · rintro ⟨L, hL, hOK⟩
    fin_cases hL
    · exact ⟨7, by decide, by
        rw [beq_iff_eq]
        exact (mask_line_iff (b.bb p) 7 [0, 1, 2] (by norm_num) (by decide)
          (by decide)).mpr hOK⟩
    · exact ⟨56, by decide, by
        rw [beq_iff_eq]
        exact (mask_line_iff (b.bb p) 56 [3, 4, 5] (by norm_num) (by decide)
          (by decide)).mpr hOK⟩
    · exact ⟨448, by decide, by
        rw [beq_iff_eq]
        exact (mask_line_iff (b.bb p) 448 [6, 7, 8] (by norm_num) (by decide)
          (by decide)).mpr hOK⟩
    · exact ⟨73, by decide, by
        rw [beq_iff_eq]
        exact (mask_line_iff (b.bb p) 73 [0, 3, 6] (by norm_num) (by decide)
          (by decide)).mpr hOK⟩
    · exact ⟨146, by decide, by
        rw [beq_iff_eq]
        exact (mask_line_iff (b.bb p) 146 [1, 4, 7] (by norm_num) (by decide)
          (by decide)).mpr hOK⟩
    · exact ⟨292, by decide, by
        rw [beq_iff_eq]
        exact (mask_line_iff (b.bb p) 292 [2, 5, 8] (by norm_num) (by decide)
          (by decide)).mpr hOK⟩
    · exact ⟨273, by decide, by
        rw [beq_iff_eq]
        exact (mask_line_iff (b.bb p) 273 [0, 4, 8] (by norm_num) (by decide)
          (by decide)).mpr hOK⟩
    · exact ⟨84, by decide, by
        rw [beq_iff_eq]
        exact (mask_line_iff (b.bb p) 84 [2, 4, 6] (by norm_num) (by decide)
          (by decide)).mpr hOK⟩

theorem mem_getLegalMoves {b : Board} {m : Int} (h : m ∈ b.getLegalMoves) :
    0 ≤ m ∧ m ≤ 8 ∧ b.isCellOccupied m = false := by
  unfold Board.getLegalMoves at h
  rcases List.mem_map.mp h with ⟨c, hc, rfl⟩
  obtain ⟨hcr, hnot⟩ := List.mem_filter.mp hc
  have hc9 : c < 9 := List.mem_range.mp hcr
  refine ⟨by omega, by omega, ?_⟩
  cases hocc : b.isCellOccupied (c : Int)
  · rfl
  · simp [hocc] at hnot

theorem legal_makeMove_ok {b : Board} {m : Int} (p : Player)
    (h : m ∈ b.getLegalMoves) : b.makeMove m p = .ok (b.place m p) := by
  obtain ⟨h0, h8, hocc⟩ := mem_getLegalMoves h
  exact board_makeMove_ok b m p h0 h8 hocc

theorem simWin_legal {b : Board} {m : Int} (p : Player)
    (h : m ∈ b.getLegalMoves) : simWin b p m = (b.place m p).hasWin p := by
  unfold simWin
  have hcl : b.clone = b := rfl
  rw [hcl, legal_makeMove_ok p h]

/-- C8: the heuristic (medium) strategy takes its rules in strict priority
order; whenever the mover has an immediate winning move and a move blocking
the opponent's immediate win, `chooseMove` returns a move that wins
immediately for the mover (rule 1 fires before rule 2 is consulted). -/
theorem mediumAI_prefers_win (g : InfinitoeGame)
    (hwin : ∃ m ∈ g.board.getLegalMoves,
      (g.board.place m g.current).hasWin g.current = true)
    (_hblock : ∃ m ∈ g.board.getLegalMoves,
      (g.board.place m g.current.other).hasWin g.current.other = true) :
    ∃ m, MediumAI.chooseMove g = some m ∧ m ∈ g.board.getLegalMoves
      ∧ (g.board.place m g.current).hasWin g.current = true := by
  obtain ⟨m0, hm0, hw0⟩ := hwin
  have hfind : (g.board.getLegalMoves.find?
      (fun m => simWin g.board g.current m)).isSome := by
    rw [List.find?_isSome]
    exact ⟨m0, hm0, by rw [simWin_legal g.current hm0]; exact hw0⟩
  rcases hfound : g.board.getLegalMoves.find?
      (fun m => simWin g.board g.current m) with _ | m
  · rw [hfound] at hfind
    cases hfind
  · refine ⟨m, ?_, List.mem_of_find?_eq_some hfound, ?_⟩
    · simp only [MediumAI.chooseMove]
      rw [hfound]
    · have hp := List.find?_some hfound
      rwa [simWin_legal g.current (List.mem_of_find?_eq_some hfound)] at hp

theorem mediumAI_prefers_win_witness :
    (∃ m ∈ (⟨⟨3, 24⟩, .X, [0, 1], [3, 4], .ONGOING⟩ :
        InfinitoeGame).board.getLegalMoves,
      ((⟨⟨3, 24⟩, .X, [0, 1], [3, 4], .ONGOING⟩ :
        InfinitoeGame).board.place m .X).hasWin .X = true)
    ∧ (∃ m ∈ (⟨⟨3, 24⟩, .X, [0, 1], [3, 4], .ONGOING⟩ :
        InfinitoeGame).board.getLegalMoves,
      ((⟨⟨3, 24⟩, .X, [0, 1], [3, 4], .ONGOING⟩ :
        InfinitoeGame).board.place m Player.X.other).hasWin Player.X.other
        = true)
    ∧ (∃ m, MediumAI.chooseMove
        ⟨⟨3, 24⟩, .X, [0, 1], [3, 4], .ONGOING⟩ = some m
      ∧ m ∈ (⟨⟨3, 24⟩, .X, [0, 1], [3, 4], .ONGOING⟩ :
          InfinitoeGame).board.getLegalMoves
      ∧ ((⟨⟨3, 24⟩, .X, [0, 1], [3, 4], .ONGOING⟩ :
          InfinitoeGame).board.place m .X).hasWin .X = true) :=
  ⟨⟨2, by decide, by decide⟩, ⟨5, by decide, by decide⟩,
   mediumAI_prefers_win ⟨⟨3, 24⟩, .X, [0, 1], [3, 4], .ONGOING⟩
     ⟨2, by decide, by decide⟩ ⟨5, by decide, by decide⟩⟩

/-- A concrete reachable state: the accepted sequence X0, O4, X1, O5, X3,
O7 from a fresh game, with its two acceptance logs. -/
theorem reach_example :
    ReachLog ⟨⟨11, 176⟩, .X, [0, 1, 3], [4, 5, 7], .ONGOING⟩
      [0, 1, 3] [4, 5, 7] := by
  have s1 := ReachLog.step (r := { status := .ONGOING, removed := none })
    .init
    (show InfinitoeGame.init.makeMove 0
      = .ok (⟨⟨1, 0⟩, .O, [0], [], .ONGOING⟩, _) from rfl)
  have s2 := ReachLog.step (r := { status := .ONGOING, removed := none }) s1
    (show InfinitoeGame.makeMove ⟨⟨1, 0⟩, .O, [0], [], .ONGOING⟩ 4
      = .ok (⟨⟨1, 16⟩, .X, [0], [4], .ONGOING⟩, _) from rfl)
  have s3 := ReachLog.step (r := { status := .ONGOING, removed := none }) s2
    (show InfinitoeGame.makeMove ⟨⟨1, 16⟩, .X, [0], [4], .ONGOING⟩ 1
      = .ok (⟨⟨3, 16⟩, .O, [0, 1], [4], .ONGOING⟩, _) from rfl)
  have s4 := ReachLog.step (r := { status := .ONGOING, removed := none }) s3
    (show InfinitoeGame.makeMove ⟨⟨3, 16⟩, .O, [0, 1], [4], .ONGOING⟩ 5
      = .ok (⟨⟨3, 48⟩, .X, [0, 1], [4, 5], .ONGOING⟩, _) from rfl)
  have s5 := ReachLog.step (r := { status := .ONGOING, removed := none }) s4
    (show InfinitoeGame.makeMove ⟨⟨3, 48⟩, .X, [0, 1], [4, 5], .ONGOING⟩ 3
      = .ok (⟨⟨11, 48⟩, .O, [0, 1, 3], [4, 5], .ONGOING⟩, _) from rfl)
  have s6 := ReachLog.step (r := { status := .ONGOING, removed := none }) s5
    (show InfinitoeGame.makeMove ⟨⟨11, 48⟩, .O, [0, 1, 3], [4, 5], .ONGOING⟩ 7
      = .ok (⟨⟨11, 176⟩, .X, [0, 1, 3], [4, 5, 7], .ONGOING⟩, _) from rfl)
  exact s6

/-- C4: in every reachable state each player's history has length at most
3, each player occupies at most 3 of the 9 cells, and at most 6 of the 9
cells are occupied in total. -/
theorem history_and_occupancy_bounded (g : InfinitoeGame) (lx lo : List Int)
    (h : ReachLog g lx lo) :
    (∀ p, (g.history p).length ≤ 3 ∧ g.board.occCount p ≤ 3)
    ∧ g.board.totalOcc ≤ 6 := by
  have inv := inv_of_reachLog h
  exact ⟨fun p => ⟨hist_len_le inv p, occCount_le inv p⟩, totalOcc_le inv⟩

theorem history_and_occupancy_bounded_witness :
    ReachLog ⟨⟨11, 176⟩, .X, [0, 1, 3], [4, 5, 7], .ONGOING⟩
      [0, 1, 3] [4, 5, 7]
    ∧ ((∀ p, ((⟨⟨11, 176⟩, .X, [0, 1, 3], [4, 5, 7], .ONGOING⟩ :
          InfinitoeGame).history p).length ≤ 3
        ∧ (⟨⟨11, 176⟩, .X, [0, 1, 3], [4, 5, 7], .ONGOING⟩ :
            InfinitoeGame).board.occCount p ≤ 3)
      ∧ (⟨⟨11, 176⟩, .X, [0, 1, 3], [4, 5, 7], .ONGOING⟩ :
          InfinitoeGame).board.totalOcc ≤ 6) :=
  ⟨reach_example,
   history_and_occupancy_bounded _ [0, 1, 3] [4, 5, 7] reach_example⟩

/-- C5: a reachable ongoing state always has a legal move — the game can
never run out of moves while `ONGOING`, so it can only end in a win. -/
theorem ongoing_has_legal_moves (g : InfinitoeGame) (lx lo : List Int)
    (h : ReachLog g lx lo) (_hs : g.status = .ONGOING) :
    g.board.getLegalMoves ≠ [] :=
  legal_ne_nil (inv_of_reachLog h)

theorem ongoing_has_legal_moves_witness :
    (ReachLog ⟨⟨11, 176⟩, .X, [0, 1, 3], [4, 5, 7], .ONGOING⟩
        [0, 1, 3] [4, 5, 7]
      ∧ (⟨⟨11, 176⟩, .X, [0, 1, 3], [4, 5, 7], .ONGOING⟩ :
          InfinitoeGame).status = .ONGOING)
    ∧ (⟨⟨11, 176⟩, .X, [0, 1, 3], [4, 5, 7], .ONGOING⟩ :
        InfinitoeGame).board.getLegalMoves ≠ [] :=
  ⟨⟨reach_example, rfl⟩,
   ongoing_has_legal_moves _ [0, 1, 3] [4, 5, 7] reach_example rfl⟩

/-- C3: eviction is strict FIFO per mark. On an accepted move by the
current mark whose acceptance log `l` already holds `n - 1 ≥ 3` entries
(so this is the mark's `n`-th accepted move with `n ≥ 4`), `makeMove`
removes exactly the cell of the mark's `(n-3)`-th accepted move — the
entry `l[l.length - 3]` — returning it as `removed`, deleting it from the
mark's history (the history becomes its tail plus the new cell, and the
evicted cell is no longer in it) and freeing it on the board. A mark's
first three accepted moves return `removed = null`. -/
theorem eviction_strict_fifo (g : InfinitoeGame) (lx lo : List Int) (i : Int)
    (g' : InfinitoeGame) (r : MoveResult)
    (h : ReachLog g lx lo) (ha : g.accepts i = true)
    (hm : g.makeMove i = .ok (g', r)) :
    ((plog g.current lx lo).length < 3 → r.removed = none)
    ∧ (3 ≤ (plog g.current lx lo).length →
        ∃ c, (plog g.current lx lo)[(plog g.current lx lo).length - 3]?
            = some c
          ∧ r.removed = some c
          ∧ g'.history g.current = (g.history g.current).tail ++ [i]
          ∧ c ∉ g'.history g.current
          ∧ g'.board.isCellOccupied c = false) := by
  have inv := inv_of_reachLog h
  obtain ⟨hs, hocc⟩ := (accepts_iff g i).mp ha
  have hrange : ¬(i < 0 ∨ 8 < i) := by
    intro hr
    have herr : g.makeMove i = .error ("Invalid position: " ++ toString i) := by
      unfold InfinitoeGame.makeMove
      rw [if_neg (by simp [hs, hocc])]
      unfold Board.makeMove
      rw [if_pos hr]
    rw [herr] at hm
    cases hm
  have h0 : 0 ≤ i := by omega
  have h8 : i ≤ 8 := by omega
  rw [makeMove_accepted g i hs hocc h0 h8] at hm
  have hpair : g.finishMove i (g.board.place i g.current) = (g', r) := by
    injection hm
  have hg' : (g.finishMove i (g.board.place i g.current)).1 = g' :=
    congrArg Prod.fst hpair
  have hr' : (g.finishMove i (g.board.place i g.current)).2 = r :=
    congrArg Prod.snd hpair
  subst hg'
  subst hr'
  have hfresh : ∀ p : Player, i ∉ g.history p :=
    not_mem_of_unoccupied inv hocc h0 h8
  constructor
  · intro hlt
    have hshort : (g.history g.current).length ≤ 2 := by
      rw [inv.hw g.current, windowOf_length]
      omega
    exact finishMove_removed_short g i (g.board.place i g.current) hshort
  · intro hL3
    obtain ⟨c, t, hwoc, ht2, hgetc⟩ := windowOf_cons hL3
    have hhist : g.history g.current = c :: t := by
      rw [inv.hw g.current, hwoc]
    have hhc := finishMove_histcur_evict g i (g.board.place i g.current)
      c t hhist ht2
    have hb := finishMove_board_evict g i (g.board.place i g.current)
      c t hhist ht2
    have hrm := finishMove_removed_evict g i (g.board.place i g.current)
      c t hhist ht2
    have hct : c ∉ t := by
      have hn := inv.hndp g.current
      rw [hhist] at hn
      exact (List.nodup_cons.mp hn).1
    have hci : ¬ c = i := by
      intro hcontra
      apply hfresh g.current
      rw [hhist, ← hcontra]
      exact List.mem_cons_self c t
    have hcmem : c ∈ g.history g.current := by
      rw [hhist]
      exact List.mem_cons_self c t
    obtain ⟨hc0, hc8⟩ := inv.hent g.current c hcmem
    refine ⟨c, hgetc, hrm, ?_, ?_, ?_⟩
    · rw [hhc, hhist, List.tail_cons]
    · rw [hhc]
      intro hmem
      rcases List.mem_append.mp hmem with hmt | hmi
      · exact hct hmt
      · rw [List.mem_singleton] at hmi
        exact hci hmi
    · have hq : ∀ q : Player,
          (((g.finishMove i (g.board.place i g.current)).1.board).bb q).testBit
            (jsBit c) = false := by
        intro q
        rw [hb]
        by_cases hqc : q = g.current
        · subst hqc
          rw [jsBit_eq_toNat hc0 hc8,
            testBit_remove_char (g.board.place i g.current) c g.current
              c.toNat hc0 hc8 (by omega)]
          have heq : ((c.toNat : Nat) : Int) = c := Int.toNat_of_nonneg hc0
          simp [heq]
        · rw [bb_removeMove_other _ c g.current q hqc,
            bb_place_other g.board i g.current q hqc, inv.hbb q (jsBit c)]
          have hjc : ((jsBit c : Nat) : Int) = c := by
            rw [jsBit_eq_toNat hc0 hc8]
            exact Int.toNat_of_nonneg hc0
          rw [hjc]
          apply decide_eq_false
          intro hmemq
          exact inv.hdisj c g.current q (fun hcontra => hqc hcontra.symm)
            hcmem hmemq
      unfold Board.isCellOccupied
      rw [show ∀ bd : Board, bd.bbX = bd.bb .X from fun _ => rfl,
        show ∀ bd : Board, bd.bbO = bd.bb .O from fun _ => rfl,
        hq .X, hq .O]
      rfl

theorem eviction_strict_fifo_witness :
    (ReachLog (⟨⟨11, 176⟩, .X, [0, 1, 3], [4, 5, 7], .ONGOING⟩ :
        InfinitoeGame) [0, 1, 3] [4, 5, 7]
      ∧ (⟨⟨11, 176⟩, .X, [0, 1, 3], [4, 5, 7], .ONGOING⟩ :
          InfinitoeGame).accepts 6 = true
      ∧ (⟨⟨11, 176⟩, .X, [0, 1, 3], [4, 5, 7], .ONGOING⟩ :
          InfinitoeGame).makeMove 6
        = .ok (⟨⟨74, 176⟩, .O, [1, 3, 6], [4, 5, 7], .ONGOING⟩,
            { status := .ONGOING, removed := some 0 }))
    ∧ ((([0, 1, 3] : List Int).length < 3 →
          ({ status := .ONGOING, removed := some 0 } : MoveResult).removed
            = none)
      ∧ (3 ≤ ([0, 1, 3] : List Int).length →
          ∃ c, ([0, 1, 3] : List Int)[([0, 1, 3] : List Int).length - 3]?
              = some c
            ∧ ({ status := .ONGOING, removed := some 0 } :
                MoveResult).removed = some c
            ∧ (⟨⟨74, 176⟩, .O, [1, 3, 6], [4, 5, 7], .ONGOING⟩ :
                InfinitoeGame).history .X
              = ((⟨⟨11, 176⟩, .X, [0, 1, 3], [4, 5, 7], .ONGOING⟩ :
                  InfinitoeGame).history .X).tail ++ [6]
            ∧ c ∉ (⟨⟨74, 176⟩, .O, [1, 3, 6], [4, 5, 7], .ONGOING⟩ :
                InfinitoeGame).history .X
            ∧ (⟨⟨74, 176⟩, .O, [1, 3, 6], [4, 5, 7], .ONGOING⟩ :
                InfinitoeGame).board.isCellOccupied c = false)) :=
  ⟨⟨reach_example, by decide, by rfl⟩,
   eviction_strict_fifo _ [0, 1, 3] [4, 5, 7] 6 _ _ reach_example (by decide)
     (by rfl)⟩

theorem heap_applyOp_frame (h : Heap) (r s : Nat) (op : BOp) (hne : s ≠ r) :
    (h.applyOp r op).store s = h.store s := by
  cases op with
  | make pos p =>
    simp only [Heap.applyOp]
    rcases hmk : (h.store r).makeMove pos p with e | bb
    · rfl
    · unfold Heap.update
      simp [hne]
  | remove pos p =>
    simp only [Heap.applyOp]
    unfold Heap.update
    simp [hne]

theorem heap_applyOps_frame (h : Heap) (r s : Nat) (ops : List BOp)
    (hne : s ≠ r) : (h.applyOps r ops).store s = h.store s := by
  induction ops generalizing h with
  | nil => rfl
  | cons op ops ih =>
    unfold Heap.applyOps
    rw [ih (h.applyOp r op), heap_applyOp_frame h r s op hne]

/-- C9: `clone()` produces a fully independent copy. Cloning the board
object at reference `b` allocates a fresh reference holding the same
occupancy record; any sequence of `makeMove`/`removeMove` mutations run on
the clone leaves the original object — its record, every `getCell` and
`isCellOccupied` observation and every `hasWin` result — exactly as before
the clone, and symmetrically mutations of the original never change the
clone. -/
theorem clone_independent (h : Heap) (b : Nat) (hb : b < h.next) :
    (h.cloneBoard b).1 ≠ b
    ∧ (h.cloneBoard b).2.store (h.cloneBoard b).1 = h.store b
    ∧ (h.cloneBoard b).2.store b = h.store b
    ∧ ∀ ops : List BOp,
        (((h.cloneBoard b).2.applyOps (h.cloneBoard b).1 ops).store b
            = h.store b)
        ∧ (∀ pos : Int,
            (((h.cloneBoard b).2.applyOps (h.cloneBoard b).1 ops).store
                b).getCell pos = (h.store b).getCell pos)
        ∧ (∀ pos : Int,
            (((h.cloneBoard b).2.applyOps (h.cloneBoard b).1 ops).store
                b).isCellOccupied pos = (h.store b).isCellOccupied pos)
        ∧ (∀ p : Player,
            (((h.cloneBoard b).2.applyOps (h.cloneBoard b).1 ops).store
                b).hasWin p = (h.store b).hasWin p)
        ∧ (((h.cloneBoard b).2.applyOps b ops).store (h.cloneBoard b).1
            = h.store b) := by
  have hcb : (h.cloneBoard b).1 = h.next := rfl
  have hne : (h.cloneBoard b).1 ≠ b := by
    rw [hcb]
    omega
  have hstc : (h.cloneBoard b).2.store (h.cloneBoard b).1 = h.store b := by
    unfold Heap.cloneBoard
    simp
  have hstb : (h.cloneBoard b).2.store b = h.store b := by
    unfold Heap.cloneBoard
    have hbne : b ≠ h.next := by omega
    simp [hbne]
  refine ⟨hne, hstc, hstb, ?_⟩
  intro ops
  have hA : ((h.cloneBoard b).2.applyOps (h.cloneBoard b).1 ops).store b
      = h.store b := by
    rw [heap_applyOps_frame _ _ _ _ (fun hcon => hne hcon.symm), hstb]
  have hD : ((h.cloneBoard b).2.applyOps b ops).store (h.cloneBoard b).1
      = h.store b := by
    rw [heap_applyOps_frame _ _ _ _ hne, hstc]
  exact ⟨hA, fun pos => by rw [hA], fun pos => by rw [hA],
    fun p => by rw [hA], hD⟩

theorem clone_independent_witness :
    (0 < (⟨fun _ => ⟨0, 0⟩, 1⟩ : Heap).next)
    ∧ ((⟨fun _ => ⟨0, 0⟩, 1⟩ : Heap).cloneBoard 0).1 ≠ 0
    ∧ ((⟨fun _ => ⟨0, 0⟩, 1⟩ : Heap).cloneBoard 0).2.store
        ((⟨fun _ => ⟨0, 0⟩, 1⟩ : Heap).cloneBoard 0).1
      = (⟨fun _ => ⟨0, 0⟩, 1⟩ : Heap).store 0
    ∧ ((⟨fun _ => ⟨0, 0⟩, 1⟩ : Heap).cloneBoard 0).2.store 0
      = (⟨fun _ => ⟨0, 0⟩, 1⟩ : Heap).store 0
    ∧ ∀ ops : List BOp,
        ((((⟨fun _ => ⟨0, 0⟩, 1⟩ : Heap).cloneBoard 0).2.applyOps
            ((⟨fun _ => ⟨0, 0⟩, 1⟩ : Heap).cloneBoard 0).1 ops).store 0
          = (⟨fun _ => ⟨0, 0⟩, 1⟩ : Heap).store 0)
        ∧ (∀ pos : Int,
            ((((⟨fun _ => ⟨0, 0⟩, 1⟩ : Heap).cloneBoard 0).2.applyOps
                ((⟨fun _ => ⟨0, 0⟩, 1⟩ : Heap).cloneBoard 0).1 ops).store
                0).getCell pos
              = ((⟨fun _ => ⟨0, 0⟩, 1⟩ : Heap).store 0).getCell pos)
        ∧ (∀ pos : Int,
            ((((⟨fun _ => ⟨0, 0⟩, 1⟩ : Heap).cloneBoard 0).2.applyOps
                ((⟨fun _ => ⟨0, 0⟩, 1⟩ : Heap).cloneBoard 0).1 ops).store
                0).isCellOccupied pos
              = ((⟨fun _ => ⟨0, 0⟩, 1⟩ : Heap).store 0).isCellOccupied pos)
        ∧ (∀ p : Player,
            ((((⟨fun _ => ⟨0, 0⟩, 1⟩ : Heap).cloneBoard 0).2.applyOps
                ((⟨fun _ => ⟨0, 0⟩, 1⟩ : Heap).cloneBoard 0).1 ops).store
                0).hasWin p
              = ((⟨fun _ => ⟨0, 0⟩, 1⟩ : Heap).store 0).hasWin p)
        ∧ ((((⟨fun _ => ⟨0, 0⟩, 1⟩ : Heap).cloneBoard 0).2.applyOps 0
              ops).store ((⟨fun _ => ⟨0, 0⟩, 1⟩ : Heap).cloneBoard 0).1
            = (⟨fun _ => ⟨0, 0⟩, 1⟩ : Heap).store 0) :=
  ⟨by decide, clone_independent ⟨fun _ => ⟨0, 0⟩, 1⟩ 0 (by decide)⟩
